import Mathlib

/-!
A shallow embedding of `seamm_dashboard/routes/projects/views.py`: the project
management views of the SEAMM dashboard.  The database visible to this module
(users, projects, jobs and the access-control table) is modelled as lists of
records; the request handlers become pure functions from a database state (and
the validated form data) to a new state.  SQLAlchemy's `one_or_none` is
modelled with `Option`: an outer `none` stands for the `MultipleResultsFound`
exception.  Filesystem effects (`os.rename`, `Path.mkdir`) are modelled where
a claim needs them (`mkdir` as inserting a directory chain into a set of
existing directories) and noted in comments otherwise.
-/

set_option maxHeartbeats 1000000

namespace Seamm

/-- A row of the `User` table: `{ id, username }`. -/
structure User where
  id : Nat
  username : String
deriving DecidableEq

/-- A row of the `UserProjectAssociation` table (an Access Control Entry):
`{ entity_id (user), resource_id (project), permissions }`. -/
structure Assoc where
  entity_id : Nat
  resource_id : Nat
  permissions : List String
deriving DecidableEq

/-- A row of the `Job` table: `{ id, path }`, owned by one project
(the `project.jobs` relationship is modelled by `project_id`). -/
structure Job where
  id : Nat
  project_id : Nat
  path : String
deriving DecidableEq

/-- A row of the `Project` table: `{ id, name, description, path, permissions }`.
`permissions` is the structured object keyed by subject class (the code only
reads and writes its `"other"` key); it is modelled as an association list. -/
structure Project where
  id : Nat
  name : String
  description : String
  path : String
  permissions : List (String × List String)
deriving DecidableEq

/-- The database state visible to this module. -/
structure DB where
  users : List User
  projects : List Project
  jobs : List Job
  assocs : List Assoc
deriving DecidableEq

/-- Python dict read `d[k]`, as an `Option`. -/
def dict_get (d : List (String × List String)) (k : String) : Option (List String) :=
  (d.find? (fun e => e.1 == k)).map (fun e => e.2)

/-- Python dict write `d[k] = v`: replace the value when the key is present,
append the binding otherwise. -/
def dict_set (d : List (String × List String)) (k : String) (v : List String) :
    List (String × List String) :=
  if d.any (fun e => e.1 == k) then
    d.map (fun e => if e.1 == k then (k, v) else e)
  else d ++ [(k, v)]

/-- The five recognized actions (views.py line 35). -/
def actions : List String := ["read", "update", "create", "delete", "manage"]

/-- `UserProjectAssociation.query.filter_by(resource_id=pid, entity_id=uid).one_or_none()`
(views.py lines 49-51 and 221-223).  The outer `none` models the
`MultipleResultsFound` exception; `some none` is a clean miss. -/
def assoc_one_or_none (assocs : List Assoc) (uid pid : Nat) : Option (Option Assoc) :=
  match assocs.filter (fun a => a.entity_id == uid && a.resource_id == pid) with
  | [] => some none
  | [a] => some (some a)
  | _ => none

/-- First matching access-control entry's permissions, as stored. -/
def lookup_perms (assocs : List Assoc) (uid pid : Nat) : Option (List String) :=
  (assocs.find? (fun a => a.entity_id == uid && a.resource_id == pid)).map
    (fun a => a.permissions)

/-- The `permissions` value `_bind_users_to_form` computes for a user
(views.py lines 48-54): the entry's list when an entry exists, `[]` otherwise. -/
def bound_perms (assocs : List Assoc) (uid pid : Nat) : List String :=
  match lookup_perms assocs uid pid with
  | some ps => ps
  | none => []

/-- views.py lines 39-44: `if len(users) > 1`, remove the current user from the
roster (Python `list.remove`, which raises `ValueError` when absent — modelled
by `none`) and put them first. -/
def reorder_users (users : List User) (cu : User) : Option (List User) :=
  if users.length > 1 then
    if cu ∈ users then some (cu :: users.erase cu) else none
  else some users

/-- views.py lines 48-54: `permissions = []`, then `if assoc: permissions =
assoc.permissions`. -/
def opt_perms : Option Assoc → List String
  | some a => a.permissions
  | none => []

/-- views.py lines 46-60, the per-user loop of `_bind_users_to_form`: for each
user (in roster order) and each action, a checkbox field keyed by
`(user.id, action)` whose default is `action in permissions`.  `none` models a
`MultipleResultsFound` escape from `one_or_none`. -/
def bind_fields_for (assocs : List Assoc) (pid : Nat) :
    List User → Option (List ((Nat × String) × Bool))
  | [] => some []
  | u :: rest =>
    match assoc_one_or_none assocs u.id pid with
    | none => none
    | some optAssoc =>
      let permissions := opt_perms optAssoc
      let fields := actions.map (fun action => ((u.id, action), permissions.contains action))
      (bind_fields_for assocs pid rest).map (fun restFields => fields ++ restFields)

/-- `_bind_users_to_form` (views.py lines 28-62): reorder the roster, build the
per-user checkbox fields and the `{username, id}` display list.  Read-only: the
function takes the user roster and the access table and returns only the new
fields and display list, never a modified table. -/
def bind_users_to_form (users : List User) (cu : User) (pid : Nat)
    (assocs : List Assoc) :
    Option (List ((Nat × String) × Bool) × List (String × Nat)) :=
  (reorder_users users cu).bind (fun us =>
    (bind_fields_for assocs pid us).map (fun fields =>
      (fields, us.map (fun u => (u.username, u.id)))))

/-- A field name of the management form.  The source encodes a user field as
the string `f"user_{user.id}_{action}"` (views.py lines 47 and 58) and recovers
`(user_id, action)` with `key.split("_")` and `int(split[1])` (lines 200-203);
since a user id prints as decimal digits and no action contains an underscore,
that encoding is injective and field names are modelled by this structured key.
`allowPublic` is the `allow_public` field added at line 177. -/
inductive FieldKey where
  | user (uid : Nat) (action : String)
  | allowPublic
deriving DecidableEq

/-- `"user" in x` (views.py line 195): substring test on the field name, true
exactly for the `user_{id}_{action}` fields of this form. -/
def FieldKey.mentionsUser : FieldKey → Bool
  | .user _ _ => true
  | .allowPublic => false

/-- The `form.data` dict of the submitted management form: one boolean per
roster user per action (fields created at lines 46-58, in roster × action
order) followed by `allow_public` (line 177).  `checked uid action` is the
submitted checkbox value for that user field and `pub` the submitted
`allow_public` value. -/
def form_data (users : List User) (checked : Nat → String → Bool) (pub : Bool) :
    List (FieldKey × Bool) :=
  (users.map (fun u => actions.map (fun a => (FieldKey.user u.id a, checked u.id a)))).flatten
    ++ [(FieldKey.allowPublic, pub)]

/-- views.py lines 194-196:
`[x for x in form.data.keys() if "user" in x if form.data[x] is True]`. -/
def user_keys (fd : List (FieldKey × Bool)) : List FieldKey :=
  (fd.filter (fun kv => kv.1.mentionsUser && kv.2)).map (fun kv => kv.1)

/-- views.py lines 205-208: `permissions_dict[user_id].append(permission)`,
creating the key on `KeyError`. -/
def dict_append (d : List (Nat × List String)) (uid : Nat) (p : String) :
    List (Nat × List String) :=
  if d.any (fun e => e.1 == uid) then
    d.map (fun e => if e.1 == uid then (e.1, e.2 ++ [p]) else e)
  else d ++ [(uid, [p])]

/-- One iteration of the grouping loop (views.py lines 200-208): split the key
into `(user_id, permission)` and append to the entry for that user.  (Only
user keys reach the loop; the `allowPublic` arm is unreachable.) -/
def pd_step (d : List (Nat × List String)) : FieldKey → List (Nat × List String)
  | .user uid a => dict_append d uid a
  | .allowPublic => d

/-- views.py lines 198-208: group the checked `user_{id}_{action}` keys into
`user_id → list of granted actions`, in key order. -/
def permissions_dict (keys : List FieldKey) : List (Nat × List String) :=
  keys.foldl pd_step []

/-- views.py lines 216-219: `permissions_dict[user_id]` with `KeyError ⇒ []`. -/
def dict_getD (d : List (Nat × List String)) (uid : Nat) : List String :=
  match d.find? (fun e => e.1 == uid) with
  | some e => e.2
  | none => []

/-- views.py lines 221-235, the lookup-or-create step for one roster user:
look up the entry for `(user, project)`; create it with the computed
permissions when absent, overwrite its permissions when present.  `none`
models the `MultipleResultsFound` exception from `one_or_none`. -/
def reconcile_user (assocs : List Assoc) (pid uid : Nat) (perms : List String) :
    Option (List Assoc) :=
  match assoc_one_or_none assocs uid pid with
  | none => none
  | some none => some (assocs ++ [⟨uid, pid, perms⟩])
  | some (some _) =>
      some (assocs.map (fun a =>
        if a.entity_id == uid && a.resource_id == pid then
          { a with permissions := perms }
        else a))

/-- views.py lines 213-235: the reconciliation loop over the full roster
(`for entry in users`), committing each entry in turn. -/
def reconcile_users (pid : Nat) (pd : List (Nat × List String)) :
    List User → List Assoc → Option (List Assoc)
  | [], assocs => some assocs
  | u :: rest, assocs =>
    (reconcile_user assocs pid u.id (dict_getD pd u.id)).bind
      (reconcile_users pid pd rest)

/-- The validated POST branch of `manage_project` (views.py lines 185-238).
The guard `if form.allow_public:` (line 188) tests the truthiness of the
`BooleanField` field object itself — which is always truthy — not the
submitted datum `form.allow_public.data`, so the public-read branch is
modelled as unconditional: the project's `"other"` permission list is set to
`["read"]` on every validated submission.  Then the checked user fields are
grouped and the access table reconciled over the re-queried roster
(`User.query.all()`, line 211). -/
def manage_project (dbv : DB) (pid : Nat) (checked : Nat → String → Bool)
    (pub : Bool) : Option DB :=
  let projects' := dbv.projects.map (fun p =>
    if p.id == pid then
      { p with permissions := dict_set p.permissions "other" ["read"] }
    else p)
  let fd := form_data dbv.users checked pub
  let pd := permissions_dict (user_keys fd)
  (reconcile_users pid pd dbv.users dbv.assocs).map
    (fun assocs' => { dbv with projects := projects', assocs := assocs' })

/-- Recursion core of SQL `replace`: the fuel (an upper bound on the number of
steps, each of which consumes at least one character) makes the recursion
structural, so that the function evaluates inside the kernel. -/
def replace_go (pat rep : List Char) : Nat → List Char → List Char
  | _, [] => []
  | 0, s => s
  | fuel + 1, c :: cs =>
    if pat ≠ [] ∧ pat.isPrefixOf (c :: cs) then
      rep ++ replace_go pat rep fuel ((c :: cs).drop pat.length)
    else
      c :: replace_go pat rep fuel cs

/-- SQL `replace(string, from, to)` (SQLAlchemy `func.replace`, views.py line
128): replace every occurrence of `pat` in the subject, scanning left to right
and skipping past each replacement; an empty `pat` leaves the subject
unchanged.  Modelled on character lists. -/
def replace_all (pat rep s : List Char) : List Char :=
  replace_go pat rep s.length s

/-- `replace_all` lifted to strings. -/
def sql_replace (s pat rep : String) : String :=
  ⟨replace_all pat.data rep.data s.data⟩

/-- Whether `pat` occurs as a contiguous sublist of `s`. -/
def occurs_in (pat : List Char) : List Char → Bool
  | [] => pat.isEmpty
  | c :: cs => pat.isPrefixOf (c :: cs) || occurs_in pat cs

/-- `s.endswith("/")` on the character-list view. -/
def ends_with_slash (s : String) : Bool := s.data.getLast? == some '/'

/-- `s.startswith("/")` on the character-list view. -/
def starts_with_slash (s : String) : Bool := s.data.head? == some '/'

/-- `posixpath.dirname` (used at views.py line 114): everything before the
last `/`, with trailing slashes stripped unless the head is all slashes. -/
def dirname (p : String) : String :=
  let cs := p.data
  let afterLen := (cs.reverse.takeWhile (fun c => c ≠ '/')).length
  let head := cs.take (cs.length - afterLen)
  if head ≠ [] ∧ head.any (fun c => c ≠ '/') then
    ⟨(head.reverse.dropWhile (fun c => c = '/')).reverse⟩
  else ⟨head⟩

/-- `posixpath.join` for two components (views.py line 114; also the model of
`pathlib`'s `/` at line 264, which agrees with it on the shapes used there):
an absolute second component wins; otherwise a separator is inserted unless
the first component is empty or already ends in `/`. -/
def os_path_join (a b : String) : String :=
  if starts_with_slash b then b
  else if a == "" || ends_with_slash a then a ++ b
  else a ++ "/" ++ b

/-- `Project.query.filter(Project.name == name).one_or_none()` (views.py line
117).  The outer `none` models `MultipleResultsFound`. -/
def project_by_name_one_or_none (projects : List Project) (name : String) :
    Option (Option Project) :=
  match projects.filter (fun p => p.name == name) with
  | [] => some none
  | [p] => some (some p)
  | _ => none

/-- Outcome of a validated `edit_project` submission.  `collision` carries the
(unchanged) database and stands for the flashed
`"A project with the name … already exists."` message plus redirect
(views.py lines 118-120); `renamed` carries the updated database;
`multipleFound` models a `MultipleResultsFound` escape from `one_or_none`. -/
inductive EditOutcome where
  | collision (dbv : DB)
  | renamed (dbv : DB)
  | multipleFound
deriving DecidableEq

/-- The validated POST branch of `edit_project` (views.py lines 111-142):
compute the sibling path named by the submitted name; reject when any project
already has that name; otherwise bulk-rewrite the paths of this project's jobs
with SQL `replace`, rename the directory (`os.rename`, line 133 — a filesystem
effect outside this data model), and update the project's path, name and
description.  The outer `none` models `Project.query.get` returning `None`
(such a request is rejected by `authorize.update` before this code runs). -/
def edit_project (dbv : DB) (pid : Nat) (newName newNotes : String) :
    Option EditOutcome :=
  match dbv.projects.find? (fun p => p.id == pid) with
  | none => none
  | some project =>
    let path := project.path
    let new_path := os_path_join (dirname path) newName
    match project_by_name_one_or_none dbv.projects newName with
    | none => some .multipleFound
    | some (some _) => some (.collision dbv)
    | some none =>
      let job_ids := (dbv.jobs.filter (fun j => j.project_id == project.id)).map
        (fun j => j.id)
      let jobs' := dbv.jobs.map (fun j =>
        if job_ids.contains j.id then
          { j with path := sql_replace j.path path new_path }
        else j)
      let projects' := dbv.projects.map (fun p =>
        if p.id == pid then
          { p with path := new_path, name := newName, description := newNotes }
        else p)
      some (.renamed { dbv with jobs := jobs', projects := projects' })

/-- The chain `p, dirname p, dirname (dirname p), …` down to the fixpoint,
with fuel (each `dirname` step strictly shortens the path until it reaches
`/`, `""` or a relative head). -/
def ancestor_chain : Nat → String → List String
  | 0, p => [p]
  | fuel + 1, p =>
    if dirname p = p then [p] else p :: ancestor_chain fuel (dirname p)

/-- `Path.mkdir(parents=True, exist_ok=True)` (views.py line 266) on a
filesystem modelled as the set of existing directories: insert the directory
and its ancestors, never failing (in particular not when the directory already
exists). -/
def mkdir_parents (fs : List String) (p : String) : List String :=
  (ancestor_chain p.length p).foldl
    (fun acc d => if acc.contains d then acc else acc ++ [d]) fs

/-- The result of a validated `add_project` submission: the new database, the
new filesystem (set of directories) and the created record. -/
structure AddResult where
  dbv : DB
  fs : List String
  created : Project
deriving DecidableEq

/-- The validated POST branch of `add_project` (views.py lines 262-274):
compute `<datastore root>/projects/<name>` (`Path(datastore).expanduser()` is
deployment configuration resolved outside this module; `root` is its resolved
value), make the directory with parents and `exist_ok`, create and persist the
Project record.  `Project.create` lives in `seamm_datastore` (outside this
repository); modelled from the spec: it builds a record with the given name,
description and path (`newId` is the id the database assigns; the claims do
not depend on the record's default permission object, taken as empty here).
No check against existing project names is made anywhere on this path. -/
def add_project (dbv : DB) (fs : List String) (root name notes : String)
    (newId : Nat) : AddResult :=
  let project_path := os_path_join (os_path_join root "projects") name
  let fs' := mkdir_parents fs project_path
  let project : Project :=
    { id := newId, name := name, description := notes, path := project_path,
      permissions := [] }
  { dbv := { dbv with projects := dbv.projects ++ [project] },
    fs := fs', created := project }

/-- The access-table invariant: at most one entry per (user, project) pair. -/
def at_most_one (assocs : List Assoc) : Prop :=
  ∀ uid pid : Nat,
    (assocs.filter (fun a => a.entity_id == uid && a.resource_id == pid)).length ≤ 1

/-! ### Generic helper lemmas -/

theorem length_le_one_cases {α : Type} {l : List α} (h : l.length ≤ 1) :
    l = [] ∨ ∃ a, l = [a] := by
  cases l with
  | nil => exact Or.inl rfl
  | cons a t =>
    cases t with
    | nil => exact Or.inr ⟨a, rfl⟩
    | cons b t' => simp at h

theorem find?_of_filter_nil {α : Type} {p : α → Bool} {l : List α}
    (h : l.filter p = []) : l.find? p = none := by
  rw [List.find?_eq_none]
  intro x hx
  exact (List.filter_eq_nil_iff.mp h) x hx

theorem find?_of_filter_singleton {α : Type} {p : α → Bool} {l : List α} {a : α}
    (h : l.filter p = [a]) : l.find? p = some a := by
  induction l with
  | nil => simp at h
  | cons b t ih =>
    by_cases hb : p b
    · rw [List.filter_cons_of_pos hb] at h
      injection h with h1 h2
      rw [List.find?_cons_of_pos _ hb, h1]
    · rw [List.filter_cons_of_neg hb] at h
      rw [List.find?_cons_of_neg _ hb]
      exact ih h

/-! ### SQL replace -/

theorem replace_go_fuel (pat rep : List Char) :
    ∀ n m s, s.length ≤ n → s.length ≤ m →
      replace_go pat rep n s = replace_go pat rep m s := by
  intro n
  induction n with
  | zero =>
    intro m s hn _
    have : s = [] := List.eq_nil_of_length_eq_zero (Nat.le_zero.mp hn)
    subst this
    cases m <;> rfl
  | succ n ih =>
    intro m s hn hm
    cases s with
    | nil => cases m <;> rfl
    | cons c cs =>
      cases m with
      | zero => simp at hm
      | succ m' =>
        simp only [replace_go]
        by_cases hcond : pat ≠ [] ∧ pat.isPrefixOf (c :: cs)
        · rw [if_pos hcond, if_pos hcond]
          have hpat : 0 < pat.length := List.length_pos.mpr hcond.1
          have hlen : ((c :: cs).drop pat.length).length ≤ n := by
            simp only [List.length_drop, List.length_cons]
            simp only [List.length_cons] at hn
            omega
          have hlen' : ((c :: cs).drop pat.length).length ≤ m' := by
            simp only [List.length_drop, List.length_cons]
            simp only [List.length_cons] at hm
            omega
          rw [ih m' _ hlen hlen']
        · rw [if_neg hcond, if_neg hcond]
          have hlen : cs.length ≤ n := by
            simp only [List.length_cons] at hn
            omega
          have hlen' : cs.length ≤ m' := by
            simp only [List.length_cons] at hm
            omega
          rw [ih m' _ hlen hlen']

theorem replace_all_nil (pat rep : List Char) : replace_all pat rep [] = [] := rfl

theorem replace_all_cons (pat rep : List Char) (c : Char) (cs : List Char) :
    replace_all pat rep (c :: cs) =
      if pat ≠ [] ∧ pat.isPrefixOf (c :: cs) then
        rep ++ replace_all pat rep ((c :: cs).drop pat.length)
      else
        c :: replace_all pat rep cs := by
  show replace_go pat rep (cs.length + 1) (c :: cs) = _
  simp only [replace_go]
  by_cases hcond : pat ≠ [] ∧ pat.isPrefixOf (c :: cs)
  · rw [if_pos hcond, if_pos hcond]
    have hpat : 0 < pat.length := List.length_pos.mpr hcond.1
    have hlen : ((c :: cs).drop pat.length).length ≤ cs.length := by
      simp only [List.length_drop, List.length_cons]
      omega
    rw [replace_go_fuel pat rep cs.length _ _ hlen (Nat.le_refl _)]
    rfl
  · rw [if_neg hcond, if_neg hcond]
    rfl

theorem isPrefixOf_append_self (l t : List Char) : l.isPrefixOf (l ++ t) = true := by
  induction l with
  | nil => simp
  | cons a as ih => simp [List.isPrefixOf_cons₂, ih]

theorem replace_all_eat (pat rep s : List Char) (hpat : pat ≠ []) :
    replace_all pat rep (pat ++ s) = rep ++ replace_all pat rep s := by
  cases pat with
  | nil => exact absurd rfl hpat
  | cons q qs =>
    rw [List.cons_append, replace_all_cons]
    rw [if_pos ⟨hpat, by rw [← List.cons_append]; exact isPrefixOf_append_self _ _⟩]
    simp only [← List.cons_append, List.drop_left]

theorem replace_all_of_not_occurs (pat rep s : List Char)
    (h : occurs_in pat s = false) : replace_all pat rep s = s := by
  induction s with
  | nil => rfl
  | cons c cs ih =>
    simp only [occurs_in, Bool.or_eq_false_iff] at h
    rw [replace_all_cons, if_neg]
    · rw [ih h.2]
    · intro hcond
      rw [h.1] at hcond
      exact Bool.false_ne_true hcond.2

/-! ### Access reconciliation lemmas -/

theorem find?_map_of_pred_comm {α : Type} (f : α → α) (p : α → Bool)
    (hf : ∀ x, p (f x) = p x) (l : List α) :
    (l.map f).find? p = (l.find? p).map f := by
  induction l with
  | nil => rfl
  | cons b t ih =>
    simp only [List.map_cons]
    by_cases hb : p b = true
    · rw [List.find?_cons_of_pos _ (by rw [hf]; exact hb), List.find?_cons_of_pos _ hb]
      rfl
    · rw [List.find?_cons_of_neg _ (by rw [hf]; exact hb),
        List.find?_cons_of_neg _ hb, ih]

theorem overwrite_pred (uid pid u' p' : Nat) (perms : List String) (x : Assoc) :
    ((if x.entity_id == uid && x.resource_id == pid then
        { x with permissions := perms } else x).entity_id == u' &&
     (if x.entity_id == uid && x.resource_id == pid then
        { x with permissions := perms } else x).resource_id == p') =
    (x.entity_id == u' && x.resource_id == p') := by
  split <;> rfl

theorem lookup_reconcile_user_self (assocs : List Assoc) (pid uid : Nat)
    (perms : List String) (out : List Assoc)
    (h : reconcile_user assocs pid uid perms = some out) :
    lookup_perms out uid pid = some perms := by
  unfold reconcile_user assoc_one_or_none at h
  rcases hfe : assocs.filter (fun a => a.entity_id == uid && a.resource_id == pid)
    with _ | ⟨a, _ | ⟨b, t⟩⟩ <;> rw [hfe] at h
  · injection h with h'
    subst h'
    unfold lookup_perms
    rw [List.find?_append, find?_of_filter_nil hfe]
    simp
  · injection h with h'
    subst h'
    unfold lookup_perms
    rw [find?_map_of_pred_comm
      (fun a => if a.entity_id == uid && a.resource_id == pid then
        { a with permissions := perms } else a)
      (fun a => a.entity_id == uid && a.resource_id == pid)
      (overwrite_pred uid pid uid pid perms) assocs]
    rw [find?_of_filter_singleton hfe]
    have ha : (a.entity_id == uid && a.resource_id == pid) = true := by
      have hmem : a ∈ assocs.filter
          (fun x => x.entity_id == uid && x.resource_id == pid) := by
        rw [hfe]; exact List.mem_singleton.mpr rfl
      exact (List.mem_filter.mp hmem).2
    have ha' : a.entity_id = uid ∧ a.resource_id = pid := by simpa using ha
    simp [ha']
  · exact Option.noConfusion h

theorem lookup_reconcile_user_other (assocs : List Assoc) (pid uid' : Nat)
    (perms' : List String) (out : List Assoc) (uid : Nat)
    (hne : uid ≠ uid')
    (h : reconcile_user assocs pid uid' perms' = some out) :
    lookup_perms out uid pid = lookup_perms assocs uid pid := by
  unfold reconcile_user assoc_one_or_none at h
  rcases hfe : assocs.filter (fun a => a.entity_id == uid' && a.resource_id == pid)
    with _ | ⟨a, _ | ⟨b, t⟩⟩ <;> rw [hfe] at h
  · injection h with h'
    subst h'
    unfold lookup_perms
    rw [List.find?_append]
    have hnone : ([(⟨uid', pid, perms'⟩ : Assoc)]).find?
        (fun a => a.entity_id == uid && a.resource_id == pid) = none := by
      simp [Ne.symm hne]
    rw [hnone, Option.or_none]
  · injection h with h'
    subst h'
    unfold lookup_perms
    rw [find?_map_of_pred_comm
      (fun a => if a.entity_id == uid' && a.resource_id == pid then
        { a with permissions := perms' } else a)
      (fun a => a.entity_id == uid && a.resource_id == pid)
      (overwrite_pred uid' pid uid pid perms') assocs]
    cases hf : assocs.find? (fun a => a.entity_id == uid && a.resource_id == pid) with
    | none => rfl
    | some x =>
      have hx := List.find?_some hf
      have hx' : x.entity_id = uid ∧ x.resource_id = pid := by simpa using hx
      have hcond' : ¬(x.entity_id = uid' ∧ x.resource_id = pid) := by
        intro hc
        exact hne (by rw [← hx'.1, hc.1])
      simp [hcond']
  · exact Option.noConfusion h

theorem lookup_reconcile_users_other (pid : Nat) (pd : List (Nat × List String))
    (us : List User) (assocs out : List Assoc) (uid : Nat)
    (hne : ∀ w ∈ us, w.id ≠ uid)
    (h : reconcile_users pid pd us assocs = some out) :
    lookup_perms out uid pid = lookup_perms assocs uid pid := by
  induction us generalizing assocs with
  | nil =>
    injection h with h'
    rw [h']
  | cons v rest ih =>
    simp only [reconcile_users] at h
    cases hm : reconcile_user assocs pid v.id (dict_getD pd v.id) with
    | none => rw [hm] at h; exact Option.noConfusion h
    | some mid =>
      rw [hm] at h
      simp only [Option.some_bind] at h
      have h1 := ih mid (fun w hw => hne w (List.mem_cons_of_mem _ hw)) h
      have h2 := lookup_reconcile_user_other assocs pid v.id _ mid uid
        (Ne.symm (hne v (List.mem_cons_self _ _))) hm
      rw [h1, h2]

theorem lookup_reconcile_users_mem (pid : Nat) (pd : List (Nat × List String))
    (us : List User) (assocs out : List Assoc)
    (hnodup : (us.map User.id).Nodup)
    (h : reconcile_users pid pd us assocs = some out) :
    ∀ u ∈ us, lookup_perms out u.id pid = some (dict_getD pd u.id) := by
  induction us generalizing assocs with
  | nil => intro u hu; simp at hu
  | cons v rest ih =>
    intro u hu
    simp only [reconcile_users] at h
    cases hm : reconcile_user assocs pid v.id (dict_getD pd v.id) with
    | none => rw [hm] at h; exact Option.noConfusion h
    | some mid =>
      rw [hm] at h
      simp only [Option.some_bind] at h
      rw [List.map_cons, List.nodup_cons] at hnodup
      rcases List.mem_cons.mp hu with hv | hrest
      · subst hv
        have hpres := lookup_reconcile_users_other pid pd rest mid out u.id
          (fun w hw hwid => hnodup.1 (hwid ▸ List.mem_map_of_mem User.id hw)) h
        rw [hpres]
        exact lookup_reconcile_user_self assocs pid u.id _ mid hm
      · exact ih mid hnodup.2 h u hrest

/-! ### Grouping of submitted checkboxes -/

/-- The actions the key list contributes for `uid`, in key order. -/
def actions_of (uid : Nat) (keys : List FieldKey) : List String :=
  keys.filterMap (fun k => match k with
    | .user u a => if u = uid then some a else none
    | .allowPublic => none)

theorem key_pred_comm (uid : Nat) (p : String) (e : Nat × List String) :
    (if e.1 == uid then (e.1, e.2 ++ [p]) else e).1 = e.1 := by
  split <;> rfl

theorem dict_getD_append_same (d : List (Nat × List String)) (uid : Nat)
    (p : String) :
    dict_getD (dict_append d uid p) uid = dict_getD d uid ++ [p] := by
  unfold dict_append dict_getD
  by_cases hany : d.any (fun e => e.1 == uid) = true
  · rw [if_pos hany]
    rw [find?_map_of_pred_comm
      (fun e => if e.1 == uid then (e.1, e.2 ++ [p]) else e)
      (fun e => e.1 == uid)
      (fun e => by simp only [key_pred_comm]) d]
    cases hf : d.find? (fun e => e.1 == uid) with
    | none =>
      obtain ⟨x, hx, hpx⟩ := List.any_eq_true.mp hany
      exact absurd hpx ((List.find?_eq_none.mp hf) x hx)
    | some e =>
      have hpe := List.find?_some hf
      simp only [Option.map_some']
      rw [if_pos hpe]
  · rw [if_neg hany]
    rw [List.find?_append]
    have hd : d.find? (fun e => e.1 == uid) = none := by
      rw [List.find?_eq_none]
      intro x hx
      exact fun hpx => hany (List.any_eq_true.mpr ⟨x, hx, hpx⟩)
    rw [hd]
    simp

theorem dict_getD_append_other (d : List (Nat × List String)) (uid uid' : Nat)
    (p : String) (hne : uid ≠ uid') :
    dict_getD (dict_append d uid' p) uid = dict_getD d uid := by
  unfold dict_append dict_getD
  by_cases hany : d.any (fun e => e.1 == uid') = true
  · rw [if_pos hany]
    rw [find?_map_of_pred_comm
      (fun e => if e.1 == uid' then (e.1, e.2 ++ [p]) else e)
      (fun e => e.1 == uid)
      (fun e => by simp only [key_pred_comm]) d]
    cases hf : d.find? (fun e => e.1 == uid) with
    | none => rfl
    | some e =>
      have hpe := List.find?_some hf
      have heq : e.1 = uid := by simpa using hpe
      simp only [Option.map_some']
      rw [if_neg (show ¬((e.1 == uid') = true) by
        simp only [heq, beq_iff_eq]
        exact hne)]
  · rw [if_neg hany]
    rw [List.find?_append]
    have hnil : ([(uid', [p])] : List (Nat × List String)).find?
        (fun e => e.1 == uid) = none := by
      simp [Ne.symm hne]
    rw [hnil, Option.or_none]

theorem dict_getD_foldl (keys : List FieldKey) (d : List (Nat × List String))
    (uid : Nat) :
    dict_getD (keys.foldl pd_step d) uid = dict_getD d uid ++ actions_of uid keys := by
  induction keys generalizing d with
  | nil => simp [actions_of]
  | cons k ks ih =>
    rw [List.foldl_cons, ih]
    cases k with
    | user u a =>
      by_cases hu : u = uid
      · subst hu
        show dict_getD (dict_append d u a) u ++ _ = _
        rw [dict_getD_append_same]
        simp [actions_of, List.filterMap_cons]
      · show dict_getD (dict_append d u a) uid ++ _ = _
        rw [dict_getD_append_other d uid u a (fun he => hu he.symm)]
        simp [actions_of, List.filterMap_cons, hu]
    | allowPublic => simp [pd_step, actions_of, List.filterMap_cons]

theorem permissions_dict_getD (keys : List FieldKey) (uid : Nat) :
    dict_getD (permissions_dict keys) uid = actions_of uid keys := by
  unfold permissions_dict
  rw [dict_getD_foldl]
  rfl

theorem user_keys_append (a b : List (FieldKey × Bool)) :
    user_keys (a ++ b) = user_keys a ++ user_keys b := by
  unfold user_keys
  rw [List.filter_append, List.map_append]

theorem actions_of_append (uid : Nat) (a b : List FieldKey) :
    actions_of uid (a ++ b) = actions_of uid a ++ actions_of uid b := by
  unfold actions_of
  rw [List.filterMap_append]

theorem user_keys_cons (k : FieldKey) (v : Bool) (rest : List (FieldKey × Bool)) :
    user_keys ((k, v) :: rest) =
      if k.mentionsUser && v then k :: user_keys rest else user_keys rest := by
  by_cases h : (k.mentionsUser && v) = true <;>
    simp [user_keys, List.filter_cons, h]

theorem actions_of_user_keys_block (uid uidb : Nat)
    (checked : Nat → String → Bool) (as : List String) :
    actions_of uid (user_keys
      (as.map (fun a => (FieldKey.user uidb a, checked uidb a)))) =
      if uidb = uid then as.filter (checked uidb) else [] := by
  induction as with
  | nil => simp [user_keys, actions_of]
  | cons a tl ih =>
    rw [List.map_cons, user_keys_cons]
    by_cases hc : checked uidb a = true
    · rw [if_pos (by simp [FieldKey.mentionsUser, hc])]
      show actions_of uid (FieldKey.user uidb a :: _) = _
      unfold actions_of
      rw [List.filterMap_cons]
      by_cases hu : uidb = uid
      · simp only [if_pos hu]
        show a :: actions_of uid _ = _
        rw [ih, if_pos hu, List.filter_cons_of_pos hc]
      · simp only [if_neg hu]
        show actions_of uid _ = _
        rw [ih, if_neg hu]
    · rw [if_neg (by simp [FieldKey.mentionsUser, hc])]
      rw [ih]
      by_cases hu : uidb = uid
      · rw [if_pos hu, List.filter_cons_of_neg hc, if_pos hu]
      · rw [if_neg hu, if_neg hu]

theorem form_data_cons (v : User) (rest : List User)
    (checked : Nat → String → Bool) (pub : Bool) :
    form_data (v :: rest) checked pub =
      (actions.map (fun a => (FieldKey.user v.id a, checked v.id a))) ++
        form_data rest checked pub := by
  unfold form_data
  rw [List.map_cons, List.flatten_cons, List.append_assoc]

theorem actions_of_form_data_not_mem (us : List User)
    (checked : Nat → String → Bool) (pub : Bool) (uid : Nat)
    (h : uid ∉ us.map User.id) :
    actions_of uid (user_keys (form_data us checked pub)) = [] := by
  induction us with
  | nil => simp [form_data, user_keys, actions_of, FieldKey.mentionsUser]
  | cons v rest ih =>
    rw [form_data_cons, user_keys_append, actions_of_append]
    rw [List.map_cons] at h
    have h1 : uid ≠ v.id := fun he => h (he ▸ List.mem_cons_self _ _)
    have h2 : uid ∉ rest.map User.id := fun hm => h (List.mem_cons_of_mem _ hm)
    rw [actions_of_user_keys_block, if_neg (fun he => h1 he.symm), ih h2]
    rfl

theorem actions_of_form_data (us : List User) (checked : Nat → String → Bool)
    (pub : Bool) (u : User) (hmem : u ∈ us)
    (hnodup : (us.map User.id).Nodup) :
    actions_of u.id (user_keys (form_data us checked pub)) =
      actions.filter (checked u.id) := by
  induction us with
  | nil => simp at hmem
  | cons v rest ih =>
    rw [form_data_cons, user_keys_append, actions_of_append]
    rw [List.map_cons, List.nodup_cons] at hnodup
    rcases List.mem_cons.mp hmem with hv | hrest
    · subst hv
      rw [actions_of_user_keys_block, if_pos rfl]
      rw [actions_of_form_data_not_mem rest checked pub u.id hnodup.1]
      simp
    · have hune : v.id ≠ u.id :=
        fun he => hnodup.1 (he ▸ List.mem_map_of_mem User.id hrest)
      rw [actions_of_user_keys_block, if_neg hune, ih hrest hnodup.2]
      rfl

/-! ### The public-read branch -/

theorem set_pred_comm (k : String) (v : List String) (e : String × List String) :
    ((if e.1 == k then (k, v) else e).1 == k) = (e.1 == k) := by
  by_cases h : (e.1 == k) = true
  · rw [if_pos h, h]
    exact beq_self_eq_true k
  · rw [if_neg h]

theorem dict_get_dict_set (d : List (String × List String)) (k : String)
    (v : List String) :
    dict_get (dict_set d k v) k = some v := by
  unfold dict_set dict_get
  by_cases hany : d.any (fun e => e.1 == k) = true
  · rw [if_pos hany]
    rw [find?_map_of_pred_comm (fun e => if e.1 == k then (k, v) else e)
      (fun e => e.1 == k) (fun e => by simp only [set_pred_comm]) d]
    cases hf : d.find? (fun e => e.1 == k) with
    | none =>
      obtain ⟨x, hx, hpx⟩ := List.any_eq_true.mp hany
      exact absurd hpx ((List.find?_eq_none.mp hf) x hx)
    | some e =>
      have hpe := List.find?_some hf
      simp only [Option.map_some']
      rw [if_pos hpe]
  · rw [if_neg hany]
    rw [List.find?_append]
    have hd : d.find? (fun e => e.1 == k) = none := by
      rw [List.find?_eq_none]
      intro x hx
      exact fun hpx => hany (List.any_eq_true.mpr ⟨x, hx, hpx⟩)
    rw [hd]
    simp

theorem manage_sets_other (dbv : DB) (pid : Nat) (checked : Nat → String → Bool)
    (pub : Bool) (db' : DB) (h : manage_project dbv pid checked pub = some db') :
    ∀ p ∈ db'.projects, p.id = pid →
      dict_get p.permissions "other" = some ["read"] := by
  intro p hp hpid
  simp only [manage_project] at h
  cases hr : reconcile_users pid
      (permissions_dict (user_keys (form_data dbv.users checked pub)))
      dbv.users dbv.assocs with
  | none => rw [hr] at h; exact Option.noConfusion h
  | some out =>
    rw [hr] at h
    simp only [Option.map_some'] at h
    injection h with h'
    subst h'
    have hp' : p ∈ dbv.projects.map (fun q =>
        if q.id == pid then
          { q with permissions := dict_set q.permissions "other" ["read"] }
        else q) := hp
    obtain ⟨q, hq, hfq⟩ := List.mem_map.mp hp'
    by_cases hqid : (q.id == pid) = true
    · rw [if_pos hqid] at hfq
      rw [← hfq]
      exact dict_get_dict_set q.permissions "other" ["read"]
    · rw [if_neg hqid] at hfq
      subst hfq
      exact absurd (by simpa using hpid) (by simpa using hqid)

/-- C2: for every validated management submission with the "allow public"
checkbox checked, the project's permissions entry for subject `"other"` is set
to exactly `["read"]`, regardless of its prior value, and the handler commits
that change (before moving on to reconciliation). -/
theorem c2_allow_public_sets_other_read (dbv : DB) (pid : Nat)
    (checked : Nat → String → Bool) (db' : DB)
    (h : manage_project dbv pid checked true = some db') :
    ∀ p ∈ db'.projects, p.id = pid →
      dict_get p.permissions "other" = some ["read"] :=
  manage_sets_other dbv pid checked true db' h

/-- C3: every validated management submission sets the project's `"other"`
permission list to `["read"]`, unconditionally: `if form.allow_public:`
(views.py line 188) tests the truthiness of the field object, not the
submitted checkbox datum, so the branch runs for any submitted value `pub` —
in particular when the box is unchecked. -/
theorem c3_public_branch_runs_unconditionally (dbv : DB) (pid : Nat)
    (checked : Nat → String → Bool) (pub : Bool) (db' : DB)
    (h : manage_project dbv pid checked pub = some db') :
    ∀ p ∈ db'.projects, p.id = pid →
      dict_get p.permissions "other" = some ["read"] :=
  manage_sets_other dbv pid checked pub db' h

/-! ### Claim C1 -/

/-- C1: after a validated management submission completes reconciliation, every
user of the roster has an Access Control Entry for the project whose
permissions list is exactly the actions checked for them in the submitted
matrix — the empty list when none are checked; entries are created when absent
and fully overwritten (not merged) when present, so any action previously
granted but not re-checked is revoked. -/
theorem c1_reconciliation_matches_matrix (dbv : DB) (pid : Nat)
    (checked : Nat → String → Bool) (pub : Bool) (db' : DB)
    (hids : (dbv.users.map User.id).Nodup)
    (h : manage_project dbv pid checked pub = some db') :
    ∀ u ∈ dbv.users,
      lookup_perms db'.assocs u.id pid =
        some (actions.filter (fun a => checked u.id a)) := by
  intro u hu
  simp only [manage_project] at h
  cases hr : reconcile_users pid
      (permissions_dict (user_keys (form_data dbv.users checked pub)))
      dbv.users dbv.assocs with
  | none => rw [hr] at h; exact Option.noConfusion h
  | some out =>
    rw [hr] at h
    simp only [Option.map_some'] at h
    injection h with h'
    subst h'
    show lookup_perms out u.id pid = _
    rw [lookup_reconcile_users_mem pid _ dbv.users dbv.assocs out hids hr u hu]
    rw [permissions_dict_getD, actions_of_form_data dbv.users checked pub u hu hids]

/-! ### Claim C9 -/

theorem filter_length_map_overwrite (assocs : List Assoc) (uid pid u' p' : Nat)
    (perms : List String) :
    ((assocs.map (fun a =>
        if a.entity_id == uid && a.resource_id == pid then
          { a with permissions := perms } else a)).filter
      (fun a => a.entity_id == u' && a.resource_id == p')).length =
    (assocs.filter (fun a => a.entity_id == u' && a.resource_id == p')).length := by
  rw [List.filter_map, List.length_map]
  exact congrArg List.length
    (List.filter_congr (fun x _ => overwrite_pred uid pid u' p' perms x))

/-- C9: the at-most-one-entry-per-(user, project) invariant is preserved by the
lookup-or-create step of reconciliation: from any state satisfying it, the
step succeeds and either overwrites the unique existing entry in place or
appends exactly one new entry, never a second entry for the same pair. -/
theorem c9_lookup_or_create_preserves_invariant (assocs : List Assoc)
    (pid uid : Nat) (perms : List String) (h : at_most_one assocs) :
    ∃ out, reconcile_user assocs pid uid perms = some out ∧ at_most_one out := by
  rcases length_le_one_cases (h uid pid) with hnil | ⟨a, ha⟩
  · refine ⟨assocs ++ [⟨uid, pid, perms⟩], ?_, ?_⟩
    · unfold reconcile_user assoc_one_or_none
      rw [hnil]
    · intro u' p'
      rw [List.filter_append, List.length_append]
      by_cases hu : u' = uid ∧ p' = pid
      · obtain ⟨h1, h2⟩ := hu
        subst h1
        subst h2
        rw [hnil]
        have hle := List.length_filter_le
          (fun a => a.entity_id == u' && a.resource_id == p')
          [(⟨u', p', perms⟩ : Assoc)]
        simp only [List.length_nil, List.length_cons] at hle ⊢
        omega
      · have hone : (List.filter (fun a => a.entity_id == u' && a.resource_id == p')
            [(⟨uid, pid, perms⟩ : Assoc)]).length = 0 := by
          simp only [List.filter_cons, List.filter_nil]
          rw [if_neg]
          · rfl
          · simp only [Bool.and_eq_true, beq_iff_eq]
            exact fun hc => hu ⟨hc.1.symm, hc.2.symm⟩
        rw [hone]
        simpa using h u' p'
  · refine ⟨assocs.map (fun x =>
        if x.entity_id == uid && x.resource_id == pid then
          { x with permissions := perms } else x), ?_, ?_⟩
    · unfold reconcile_user assoc_one_or_none
      rw [ha]
    · intro u' p'
      rw [filter_length_map_overwrite]
      exact h u' p'

/-- Witness for C1: a concrete submission that revokes `"update"` from user 2
(whose entry is overwritten in place) and creates an explicit empty entry for
user 1. -/
theorem c1_witness :
    lookup_perms [(⟨2, 10, ["read"]⟩ : Assoc), (⟨1, 10, []⟩ : Assoc)] 2 10 =
      some ["read"] := by
  have h := c1_reconciliation_matches_matrix
    ⟨[⟨1, "alice"⟩, ⟨2, "bob"⟩],
     [⟨10, "A", "", "/data/projects/A", [("other", [])]⟩],
     [], [⟨2, 10, ["read", "update"]⟩]⟩ 10
    (fun uid a => uid == 2 && a == "read") true
    ⟨[⟨1, "alice"⟩, ⟨2, "bob"⟩],
     [⟨10, "A", "", "/data/projects/A", [("other", ["read"])]⟩],
     [], [⟨2, 10, ["read"]⟩, ⟨1, 10, []⟩]⟩
    (by decide) (by decide) ⟨2, "bob"⟩ (by decide)
  exact h.trans (by decide)

/-- Witness for C2: with "allow public" checked, a prior `"other"` list of
`["write"]` is replaced by exactly `["read"]`. -/
theorem c2_witness :
    dict_get [("other", ["read"])] "other" = some ["read"] := by
  have h := c2_allow_public_sets_other_read
    ⟨[], [⟨10, "A", "", "/p", [("other", ["write"])]⟩], [], []⟩ 10
    (fun _ _ => false)
    ⟨[], [⟨10, "A", "", "/p", [("other", ["read"])]⟩], [], []⟩
    (by decide)
  exact h ⟨10, "A", "", "/p", [("other", ["read"])]⟩ (by decide) rfl

/-- Witness for C3: with "allow public" UNCHECKED (`pub = false`), the branch
still runs and sets `"other"` to `["read"]`. -/
theorem c3_witness :
    manage_project ⟨[], [⟨10, "A", "", "/p", [("other", [])]⟩], [], []⟩ 10
        (fun _ _ => false) false =
      some ⟨[], [⟨10, "A", "", "/p", [("other", ["read"])]⟩], [], []⟩ ∧
    dict_get [("other", ["read"])] "other" = some ["read"] := by
  have h := c3_public_branch_runs_unconditionally
    ⟨[], [⟨10, "A", "", "/p", [("other", [])]⟩], [], []⟩ 10
    (fun _ _ => false) false
    ⟨[], [⟨10, "A", "", "/p", [("other", ["read"])]⟩], [], []⟩
    (by decide)
  exact ⟨by decide, h ⟨10, "A", "", "/p", [("other", ["read"])]⟩ (by decide) rfl⟩

/-- Witness for C9: the step at a one-entry table satisfying the invariant. -/
theorem c9_witness :
    ∃ out, reconcile_user [(⟨7, 3, ["read"]⟩ : Assoc)] 3 7 ["manage"] = some out ∧
      at_most_one out :=
  c9_lookup_or_create_preserves_invariant [⟨7, 3, ["read"]⟩] 3 7 ["manage"]
    (fun uid pid => le_trans (List.length_filter_le _ _) (by decide))

/-! ### Claims C7 and C8: the permission form binder -/

theorem one_or_none_perms (assocs : List Assoc) (uid pid : Nat)
    (optA : Option Assoc)
    (h : assoc_one_or_none assocs uid pid = some optA) :
    opt_perms optA = bound_perms assocs uid pid := by
  unfold assoc_one_or_none at h
  rcases hfe : assocs.filter (fun a => a.entity_id == uid && a.resource_id == pid)
    with _ | ⟨a, _ | ⟨b, t⟩⟩ <;> rw [hfe] at h
  · injection h with h'
    subst h'
    unfold bound_perms lookup_perms
    rw [find?_of_filter_nil hfe]
    rfl
  · injection h with h'
    subst h'
    unfold bound_perms lookup_perms
    rw [find?_of_filter_singleton hfe]
    rfl
  · exact Option.noConfusion h

theorem bind_fields_spec (assocs : List Assoc) (pid : Nat) (us : List User)
    (fields : List ((Nat × String) × Bool))
    (h : bind_fields_for assocs pid us = some fields) :
    (∀ uid action b, ((uid, action), b) ∈ fields →
        b = (bound_perms assocs uid pid).contains action) ∧
    (∀ u ∈ us, ∀ action ∈ actions,
        ((u.id, action), (bound_perms assocs u.id pid).contains action) ∈ fields) := by
  induction us generalizing fields with
  | nil =>
    injection h with h'
    subst h'
    exact ⟨fun uid action b hb => absurd hb (List.not_mem_nil _),
      fun u hu => absurd hu (List.not_mem_nil _)⟩
  | cons u rest ih =>
    simp only [bind_fields_for] at h
    cases ho : assoc_one_or_none assocs u.id pid with
    | none => rw [ho] at h; exact Option.noConfusion h
    | some optA =>
      rw [ho] at h
      cases hrest : bind_fields_for assocs pid rest with
      | none => rw [hrest] at h; exact Option.noConfusion h
      | some restFields =>
        rw [hrest] at h
        simp only [Option.map_some'] at h
        injection h with h'
        subst h'
        obtain ⟨ih1, ih2⟩ := ih restFields hrest
        have hperm := one_or_none_perms assocs u.id pid optA ho
        constructor
        · intro uid action b hb
          rcases List.mem_append.mp hb with hblk | hr
          · obtain ⟨a, ha, heq⟩ := List.mem_map.mp hblk
            simp only [Prod.mk.injEq] at heq
            obtain ⟨⟨hid, hact⟩, hval⟩ := heq
            subst hid
            subst hact
            rw [← hval, hperm]
          · exact ih1 uid action b hr
        · intro v hv action hact
          rcases List.mem_cons.mp hv with h1 | h2
          · subst h1
            apply List.mem_append.mpr
            apply Or.inl
            rw [← hperm]
            exact List.mem_map.mpr ⟨action, hact, rfl⟩
          · exact List.mem_append.mpr (Or.inr (ih2 v h2 action hact))

theorem mem_reorder (users : List User) (cu : User) (us : List User)
    (h : reorder_users users cu = some us) : ∀ u ∈ users, u ∈ us := by
  unfold reorder_users at h
  by_cases hlen : users.length > 1
  · rw [if_pos hlen] at h
    by_cases hmem : cu ∈ users
    · rw [if_pos hmem] at h
      injection h with h'
      subst h'
      intro u hu
      by_cases heq : u = cu
      · subst heq
        exact List.mem_cons_self _ _
      · exact List.mem_cons_of_mem _ ((List.mem_erase_of_ne heq).mpr hu)
    · rw [if_neg hmem] at h
      exact Option.noConfusion h
  · rw [if_neg hlen] at h
    injection h with h'
    subst h'
    exact fun u hu => hu

/-- C7: for every project and every user of the roster, the form binder marks
each recognized action checked exactly when that action string is in the
user's Access Control Entry for the project; with no entry, every action is
unchecked.  In this functional embedding the binder only returns fields and a
display list — it takes the access table as read-only input and cannot write
it. -/
theorem c7_binder_reflects_acl (users : List User) (cu : User) (pid : Nat)
    (assocs : List Assoc) (fields : List ((Nat × String) × Bool))
    (names : List (String × Nat))
    (h : bind_users_to_form users cu pid assocs = some (fields, names)) :
    (∀ uid action b, ((uid, action), b) ∈ fields →
        (b = true ↔ action ∈ bound_perms assocs uid pid)) ∧
    (∀ u ∈ users, ∀ action ∈ actions,
        ((u.id, action), (bound_perms assocs u.id pid).contains action) ∈ fields) ∧
    (∀ uid action b, ((uid, action), b) ∈ fields →
        lookup_perms assocs uid pid = none → b = false) := by
  unfold bind_users_to_form at h
  cases hro : reorder_users users cu with
  | none => rw [hro] at h; exact Option.noConfusion h
  | some us =>
    rw [hro] at h
    simp only [Option.some_bind] at h
    cases hbf : bind_fields_for assocs pid us with
    | none => rw [hbf] at h; exact Option.noConfusion h
    | some fs =>
      rw [hbf] at h
      simp only [Option.map_some'] at h
      injection h with h'
      simp only [Prod.mk.injEq] at h'
      obtain ⟨hf, hn⟩ := h'
      subst hf
      obtain ⟨s1, s2⟩ := bind_fields_spec assocs pid us _ hbf
      refine ⟨?_, ?_, ?_⟩
      · intro uid action b hb
        rw [s1 uid action b hb]
        exact ⟨fun hc => List.mem_of_elem_eq_true hc,
          fun hm => List.elem_eq_true_of_mem hm⟩
      · intro u hu action hact
        exact s2 u (mem_reorder users cu us hro u hu) action hact
      · intro uid action b hb hnone
        rw [s1 uid action b hb]
        unfold bound_perms
        rw [hnone]
        rfl

/-- Witness for C7: user 2 holds `["read"]` on project 10, so their "read" box
is checked; user 1 has no entry, so all their boxes are unchecked. -/
theorem c7_witness :
    ((((2 : Nat), "read"), true) ∈
      [(((2 : Nat), "read"), true), ((2, "update"), false), ((2, "create"), false),
       ((2, "delete"), false), ((2, "manage"), false), ((1, "read"), false),
       ((1, "update"), false), ((1, "create"), false), ((1, "delete"), false),
       ((1, "manage"), false)]) := by
  have h := c7_binder_reflects_acl [⟨1, "alice"⟩, ⟨2, "bob"⟩] ⟨2, "bob"⟩ 10
    [⟨2, 10, ["read"]⟩]
    [(((2 : Nat), "read"), true), ((2, "update"), false), ((2, "create"), false),
     ((2, "delete"), false), ((2, "manage"), false), ((1, "read"), false),
     ((1, "update"), false), ((1, "create"), false), ((1, "delete"), false),
     ((1, "manage"), false)]
    [("bob", 2), ("alice", 1)] (by decide)
  have h2 := h.2.1 ⟨2, "bob"⟩ (by decide) "read" (by decide)
  exact (show ((bound_perms [(⟨2, 10, ["read"]⟩ : Assoc)] 2 10).contains "read") = true
    by decide) ▸ h2

/-- C8: the binder reorders the roster to put the requesting user first
exactly when more than one user exists; with a single user the roster is
returned unchanged.  When reordering happens the result is the requester
followed by the rest — a permutation of the roster. -/
theorem c8_reorder_iff_multiple (users : List User) (cu : User) :
    (users.length ≤ 1 → reorder_users users cu = some users) ∧
    (1 < users.length → cu ∈ users →
      reorder_users users cu = some (cu :: users.erase cu) ∧
        List.Perm (cu :: users.erase cu) users) := by
  constructor
  · intro hle
    unfold reorder_users
    rw [if_neg (by omega)]
  · intro hgt hmem
    unfold reorder_users
    rw [if_pos hgt, if_pos hmem]
    exact ⟨rfl, (List.perm_cons_erase hmem).symm⟩

/-- Witness for C8: a singleton roster is untouched; a two-user roster is
reordered to put the requester first. -/
theorem c8_witness :
    reorder_users [(⟨1, "a"⟩ : User)] ⟨1, "a"⟩ = some [⟨1, "a"⟩] ∧
    reorder_users [(⟨1, "a"⟩ : User), ⟨2, "b"⟩] ⟨2, "b"⟩ =
      some [⟨2, "b"⟩, ⟨1, "a"⟩] := by
  refine ⟨(c8_reorder_iff_multiple [⟨1, "a"⟩] ⟨1, "a"⟩).1 (by decide), ?_⟩
  have h := (c8_reorder_iff_multiple [(⟨1, "a"⟩ : User), ⟨2, "b"⟩] ⟨2, "b"⟩).2
    (by decide) (by decide)
  exact h.1.trans (by decide)

/-! ### Claims C4, C5, C6: the project renamer -/

theorem edit_collision_red (dbv : DB) (pid : Nat) (newName newNotes : String)
    (project q : Project)
    (hp : dbv.projects.find? (fun p => p.id == pid) = some project)
    (hq : dbv.projects.filter (fun p => p.name == newName) = [q]) :
    edit_project dbv pid newName newNotes = some (.collision dbv) := by
  unfold edit_project project_by_name_one_or_none
  rw [hp, hq]

theorem edit_renamed_red (dbv : DB) (pid : Nat) (newName newNotes : String)
    (project : Project)
    (hp : dbv.projects.find? (fun p => p.id == pid) = some project)
    (hnb : dbv.projects.filter (fun p => p.name == newName) = []) :
    edit_project dbv pid newName newNotes =
      some (.renamed (DB.mk dbv.users
        (dbv.projects.map (fun p =>
          if p.id == pid then
            Project.mk p.id newName newNotes
              (os_path_join (dirname project.path) newName) p.permissions
          else p))
        (dbv.jobs.map (fun j =>
          if ((dbv.jobs.filter (fun x => x.project_id == project.id)).map
              (fun x => x.id)).contains j.id then
            Job.mk j.id j.project_id
              (sql_replace j.path project.path
                (os_path_join (dirname project.path) newName))
          else j))
        dbv.assocs)) := by
  unfold edit_project project_by_name_one_or_none
  rw [hp, hnb]

/-- C4 counterexample: the project at path `/a` is renamed to `/B`; its job at
path `/a/a` starts with `/a` with suffix `/a`, so the claim predicts `/B/a`,
but SQL `replace` rewrites every occurrence of `/a`, producing `/B/B`: the
suffix is not left untouched. -/
theorem c4_counterexample :
    edit_project ⟨[], [⟨1, "a", "", "/a", []⟩], [⟨5, 1, "/a/a"⟩], []⟩ 1 "B" "" =
      some (.renamed ⟨[], [⟨1, "B", "", "/B", []⟩], [⟨5, 1, "/B/B"⟩], []⟩) ∧
    ("/B/B" : String) ≠ "/B" ++ "/a" :=
  ⟨by decide, by decide⟩

/-- C4 (amended): on a successful rename, every job of the project has its
stored path rewritten by SQL `replace`, which substitutes the new project path
for every occurrence of the old one; when the old project path occurs in the
job's path only as its leading prefix (it does not reoccur in the suffix), this
is exactly the claimed prefix rewrite, with the suffix untouched. -/
theorem c4_rename_rewrites_job_paths (dbv : DB) (pid : Nat)
    (newName newNotes : String) (project : Project) (db' : DB) (j : Job)
    (hp : dbv.projects.find? (fun p => p.id == pid) = some project)
    (h : edit_project dbv pid newName newNotes = some (.renamed db'))
    (hj : j ∈ dbv.jobs) (hjp : j.project_id = project.id) :
    ({ j with path :=
        (sql_replace j.path project.path
          (os_path_join (dirname project.path) newName)) } ∈ db'.jobs) ∧
    (∀ suffix : String, j.path = project.path ++ suffix →
      project.path.data ≠ [] →
      occurs_in project.path.data suffix.data = false →
      sql_replace j.path project.path
          (os_path_join (dirname project.path) newName) =
        os_path_join (dirname project.path) newName ++ suffix) := by
  constructor
  · rcases hfe : dbv.projects.filter (fun p => p.name == newName)
      with _ | ⟨q, _ | ⟨r, t⟩⟩
    · rw [edit_renamed_red dbv pid newName newNotes project hp hfe] at h
      injection h with h1
      injection h1 with h2
      subst h2
      show _ ∈ dbv.jobs.map _
      apply List.mem_map.mpr
      refine ⟨j, hj, ?_⟩
      have hin : j.id ∈ (dbv.jobs.filter
          (fun x => x.project_id == project.id)).map (fun x => x.id) :=
        List.mem_map_of_mem _ (List.mem_filter.mpr ⟨hj, by simp [hjp]⟩)
      rw [if_pos (List.elem_eq_true_of_mem hin)]
    · rw [edit_collision_red dbv pid newName newNotes project q hp hfe] at h
      injection h with h1
      exact EditOutcome.noConfusion h1
    · have hmf : edit_project dbv pid newName newNotes = some .multipleFound := by
        unfold edit_project project_by_name_one_or_none
        rw [hp, hfe]
      rw [hmf] at h
      injection h with h1
      exact EditOutcome.noConfusion h1
  · intro suffix hsplit hne hocc
    rw [hsplit]
    apply String.ext
    show replace_all project.path.data
        (os_path_join (dirname project.path) newName).data
        ((project.path ++ suffix) : String).data = _
    rw [String.data_append project.path suffix]
    rw [replace_all_eat _ _ _ hne, replace_all_of_not_occurs _ _ _ hocc]
    exact (String.data_append _ _).symm

/-- Witness for C4 (amended): job `/a/j1` of the project at `/a`, renamed to
`/B`, ends at `/B/j1` — the prefix is rewritten and the suffix `/j1` (which
does not contain `/a`) is untouched. -/
theorem c4_witness :
    ((⟨5, 1, sql_replace "/a/j1" "/a"
        (os_path_join (dirname "/a") "B")⟩ : Job) ∈
      [(⟨5, 1, "/B/j1"⟩ : Job)]) ∧
    sql_replace "/a/j1" "/a" (os_path_join (dirname "/a") "B") =
      os_path_join (dirname "/a") "B" ++ "/j1" := by
  have h := c4_rename_rewrites_job_paths
    ⟨[], [⟨1, "a", "", "/a", []⟩], [⟨5, 1, "/a/j1"⟩], []⟩ 1 "B" ""
    ⟨1, "a", "", "/a", []⟩
    ⟨[], [⟨1, "B", "", "/B", []⟩], [⟨5, 1, "/B/j1"⟩], []⟩
    ⟨5, 1, "/a/j1"⟩ (by decide) (by decide) (by decide) rfl
  exact ⟨h.1, h.2 "/j1" (by decide) (by decide) (by decide)⟩

/-- C5: a rename submission whose target name is held by another project is
rejected: the handler flashes a message and redirects (the `collision`
outcome), returning the database exactly as it was — no project name, path or
description and no job path changes. -/
theorem c5_rename_collision_rejected (dbv : DB) (pid : Nat)
    (newName newNotes : String) (project q : Project)
    (hp : dbv.projects.find? (fun p => p.id == pid) = some project)
    (hq : dbv.projects.filter (fun p => p.name == newName) = [q])
    (_hqne : q.id ≠ pid) :
    edit_project dbv pid newName newNotes = some (.collision dbv) :=
  edit_collision_red dbv pid newName newNotes project q hp hq

/-- Witness for C5: renaming project 1 to "B" while project 2 is already
named "B" yields the collision outcome with the database untouched. -/
theorem c5_witness :
    edit_project
      ⟨[], [⟨1, "A", "", "/p/A", []⟩, ⟨2, "B", "", "/p/B", []⟩],
       [⟨9, 1, "/p/A/j"⟩], []⟩ 1 "B" "x" =
      some (.collision
        ⟨[], [⟨1, "A", "", "/p/A", []⟩, ⟨2, "B", "", "/p/B", []⟩],
         [⟨9, 1, "/p/A/j"⟩], []⟩) :=
  c5_rename_collision_rejected
    ⟨[], [⟨1, "A", "", "/p/A", []⟩, ⟨2, "B", "", "/p/B", []⟩],
     [⟨9, 1, "/p/A/j"⟩], []⟩ 1 "B" "x"
    ⟨1, "A", "", "/p/A", []⟩ ⟨2, "B", "", "/p/B", []⟩
    (by decide) (by decide) (by decide)

/-- C6: submitting the edit form with the project's own current name always
takes the collision branch — the uniqueness query does not exclude the project
being edited, so the project matches its own name and a description-only edit
can never succeed. -/
theorem c6_self_name_edit_always_collides (dbv : DB) (pid : Nat)
    (newNotes : String) (project : Project)
    (hp : dbv.projects.find? (fun p => p.id == pid) = some project)
    (hq : dbv.projects.filter (fun p => p.name == project.name) = [project]) :
    edit_project dbv pid project.name newNotes = some (.collision dbv) :=
  edit_collision_red dbv pid project.name newNotes project project hp hq

/-- Witness for C6: re-submitting the name "A" for the project already named
"A" (attempting a description-only edit) collides with itself. -/
theorem c6_witness :
    edit_project
      ⟨[], [⟨1, "A", "old", "/p/A", []⟩], [], []⟩ 1 "A" "new description" =
      some (.collision ⟨[], [⟨1, "A", "old", "/p/A", []⟩], [], []⟩) :=
  c6_self_name_edit_always_collides
    ⟨[], [⟨1, "A", "old", "/p/A", []⟩], [], []⟩ 1 "new description"
    ⟨1, "A", "old", "/p/A", []⟩ (by decide) (by decide)

/-! ### Claim C10: project creation -/

theorem os_path_join_of_normal (a b : String) (ha : a.data ≠ [])
    (ha2 : ends_with_slash a = false) (hb : starts_with_slash b = false) :
    os_path_join a b = a ++ "/" ++ b := by
  unfold os_path_join
  rw [if_neg (by rw [hb]; exact Bool.false_ne_true)]
  rw [if_neg]
  intro hc
  rcases Bool.or_eq_true_iff.mp hc with h1 | h2
  · exact ha (congrArg String.data (eq_of_beq h1))
  · rw [ha2] at h2
    exact Bool.false_ne_true h2

theorem path_concat_norm (root name : String) :
    ((root ++ "/" ++ "projects") ++ "/" ++ name) = root ++ "/projects/" ++ name := by
  apply String.ext
  simp only [String.data_append, List.append_assoc]
  rfl

theorem join_projects_data_ne_nil (root : String) :
    (root ++ "/" ++ "projects").data ≠ [] := by
  simp only [String.data_append]
  intro hc
  have := congrArg List.length hc
  simp at this

theorem join_projects_no_trailing_slash (root : String) :
    ends_with_slash (root ++ "/" ++ "projects") = false := by
  unfold ends_with_slash
  rw [String.data_append, List.getLast?_append]
  rw [show ("projects" : String).data.getLast? = some 's' from rfl]
  rfl

theorem mem_fold_insert_of_mem_start (ds fs : List String) (d : String)
    (h : d ∈ fs) :
    d ∈ ds.foldl (fun acc x => if acc.contains x then acc else acc ++ [x]) fs := by
  induction ds generalizing fs with
  | nil => exact h
  | cons x tl ih =>
    rw [List.foldl_cons]
    apply ih
    by_cases hc : (fs.contains x) = true
    · rw [if_pos hc]
      exact h
    · rw [if_neg hc]
      exact List.mem_append.mpr (Or.inl h)

theorem mem_fold_insert_of_mem_chain (ds fs : List String) (d : String)
    (h : d ∈ ds) :
    d ∈ ds.foldl (fun acc x => if acc.contains x then acc else acc ++ [x]) fs := by
  induction ds generalizing fs with
  | nil => exact absurd h (List.not_mem_nil d)
  | cons x tl ih =>
    rw [List.foldl_cons]
    rcases List.mem_cons.mp h with h1 | h2
    · subst h1
      apply mem_fold_insert_of_mem_start
      by_cases hc : (fs.contains d) = true
      · rw [if_pos hc]
        exact List.mem_of_elem_eq_true hc
      · rw [if_neg hc]
        exact List.mem_append.mpr (Or.inr (List.mem_singleton.mpr rfl))
    · exact ih _ h2

theorem self_mem_ancestor_chain (fuel : Nat) (p : String) :
    p ∈ ancestor_chain fuel p := by
  cases fuel with
  | zero => exact List.mem_singleton.mpr rfl
  | succ n =>
    unfold ancestor_chain
    by_cases hd : dirname p = p
    · rw [if_pos hd]
      exact List.mem_singleton.mpr rfl
    · rw [if_neg hd]
      exact List.mem_cons_self _ _

theorem dirname_mem_ancestor_chain (p : String) :
    dirname p ∈ ancestor_chain p.length p := by
  cases hl : p.length with
  | zero =>
    have hp : p = "" := String.ext (List.eq_nil_of_length_eq_zero hl)
    rw [hp]
    decide
  | succ n =>
    unfold ancestor_chain
    by_cases hd : dirname p = p
    · rw [if_pos hd, hd]
      exact List.mem_singleton.mpr rfl
    · rw [if_neg hd]
      exact List.mem_cons_of_mem _ (self_mem_ancestor_chain n (dirname p))

/-- C10: on a validated creation submission with name N and description D, the
target path is exactly `<datastore root>/projects/N`; the directory and its
parents are created with no error if they already exist (the model's `mkdir`
is total and keeps every existing directory); a Project record with that name,
description and path is appended to the table; and no uniqueness check occurs:
this all holds even when — as the `hdup` hypothesis puts it — another project
with the same name already exists. -/
theorem c10_add_project_contract (dbv : DB) (fs : List String)
    (root name notes : String) (newId : Nat) (r : AddResult)
    (hroot : root.data ≠ []) (hroot2 : ends_with_slash root = false)
    (hname : starts_with_slash name = false)
    (_hdup : ∃ p ∈ dbv.projects, p.name = name)
    (hr : add_project dbv fs root name notes newId = r) :
    r.created.name = name ∧ r.created.description = notes ∧
    r.created.path = root ++ "/projects/" ++ name ∧
    r.dbv.projects = dbv.projects ++ [r.created] ∧
    r.created.path ∈ r.fs ∧ dirname r.created.path ∈ r.fs ∧
    (∀ d ∈ fs, d ∈ r.fs) := by
  subst hr
  have hpath : os_path_join (os_path_join root "projects") name =
      root ++ "/projects/" ++ name := by
    rw [os_path_join_of_normal root "projects" hroot hroot2 (by decide)]
    rw [os_path_join_of_normal (root ++ "/" ++ "projects") name
      (join_projects_data_ne_nil root) (join_projects_no_trailing_slash root) hname]
    exact path_concat_norm root name
  refine ⟨rfl, rfl, hpath, rfl, ?_, ?_, ?_⟩
  · show os_path_join (os_path_join root "projects") name ∈
      mkdir_parents fs (os_path_join (os_path_join root "projects") name)
    unfold mkdir_parents
    exact mem_fold_insert_of_mem_chain _ fs _ (self_mem_ancestor_chain _ _)
  · show dirname (os_path_join (os_path_join root "projects") name) ∈
      mkdir_parents fs (os_path_join (os_path_join root "projects") name)
    unfold mkdir_parents
    exact mem_fold_insert_of_mem_chain _ fs _ (dirname_mem_ancestor_chain _)
  · intro d hd
    show d ∈ mkdir_parents fs (os_path_join (os_path_join root "projects") name)
    unfold mkdir_parents
    exact mem_fold_insert_of_mem_start _ fs d hd

/-- Witness for C10: creating project "N" under root `/ds` while a project
named "N" already exists still appends the record, with path
`/ds/projects/N`. -/
theorem c10_witness :
    (add_project ⟨[], [⟨1, "N", "", "/x", []⟩], [], []⟩ [] "/ds" "N" "D" 7).created.path =
      "/ds" ++ "/projects/" ++ "N" ∧
    (add_project ⟨[], [⟨1, "N", "", "/x", []⟩], [], []⟩ [] "/ds" "N" "D" 7).dbv.projects =
      [⟨1, "N", "", "/x", []⟩] ++
        [(add_project ⟨[], [⟨1, "N", "", "/x", []⟩], [], []⟩ [] "/ds" "N" "D" 7).created] := by
  have h := c10_add_project_contract ⟨[], [⟨1, "N", "", "/x", []⟩], [], []⟩ []
    "/ds" "N" "D" 7 (add_project ⟨[], [⟨1, "N", "", "/x", []⟩], [], []⟩ [] "/ds" "N" "D" 7)
    (by decide) (by decide) (by decide)
    ⟨⟨1, "N", "", "/x", []⟩, by decide, rfl⟩ rfl
  exact ⟨h.2.2.1, h.2.2.2.1⟩

end Seamm
